import Mathlib

/-!
Verification of the wound-recognition client (src/src/gemini.ts and
src/src/App.tsx) against its specification.

The TypeScript sources are shallowly embedded: JavaScript runtime values
reachable from `JSON.parse` are modelled by the inductive type `JSValue`
(with an extra `undefined` constructor for the result of reading an absent
property), JavaScript numbers by `ℚ` (`Option ℚ` where `NaN` can occur,
with `none` playing the role of `NaN`), and the builtin coercions
`String(·)`, `Number(·)` and boolean coercion by executable functions
over that type.  Fallible steps return `Option`/`Except`.
-/

/-- Model of a JavaScript value as produced by `JSON.parse`, plus `undefined`
for the value of an absent object property. Object fields are an
association list; values produced by `JSON.parse` have pairwise distinct
keys. -/
inductive JSValue where
  | undefined : JSValue
  | null : JSValue
  | bool (b : Bool) : JSValue
  | num (q : ℚ) : JSValue
  | str (s : String) : JSValue
  | arr (vs : List JSValue) : JSValue
  | obj (fields : List (String × JSValue)) : JSValue

/-- Decimal rendering of a JavaScript number. The exact double-formatting
algorithm of the runtime is abbreviated: integers render as their decimal
numeral (as in JavaScript), other rationals via the `ℚ` numeral; only
integer-valued numbers appear in the concrete inputs used below, and no
result ever renders to the empty string. -/
def renderNum (q : ℚ) : String :=
  if q.den = 1 then toString q.num else toString q

mutual

/-- Modelled ECMAScript `String(·)` / `ToString` on the values of
`JSValue`: `undefined`/`null`/booleans render to their keywords, numbers
to numerals, arrays join their elements with commas rendering
`null`/`undefined` elements as the empty string (as `Array.prototype.join`
does), and plain objects render to `[object Object]`. -/
def jsToString : JSValue → String
  | .undefined => "undefined"
  | .null => "null"
  | .bool b => if b then "true" else "false"
  | .num q => renderNum q
  | .str s => s
  | .arr vs => String.intercalate "," (jsArrStrings vs)
  | .obj _ => "[object Object]"

/-- Element-wise rendering used by `Array.prototype.join`: `null` and
`undefined` elements become the empty string. -/
def jsArrStrings : List JSValue → List String
  | [] => []
  | v :: rest =>
    (match v with
     | .undefined => ""
     | .null => ""
     | w => jsToString w) :: jsArrStrings rest

end

/-- Modelled ECMAScript boolean coercion (truthiness): `undefined`, `null`,
`false`, `0` and the empty string are falsy; everything else (including
every array and object) is truthy.  `NaN` cannot occur as a `JSValue`
since `JSON.parse` never produces it. -/
def truthy : JSValue → Bool
  | .undefined => false
  | .null => false
  | .bool b => b
  | .num q => if q = 0 then false else true
  | .str s => if s = "" then false else true
  | .arr _ => true
  | .obj _ => true

/-- JavaScript whitespace characters trimmed by `ToNumber` on strings
(the common ASCII subset). -/
def isWs (c : Char) : Bool :=
  (c == ' ') || (c == '\t') || (c == '\n') || (c == '\r')

/-- Value of a list of decimal digit characters. -/
def digitsToNat (ds : List Char) : Nat :=
  ds.foldl (fun n c => 10 * n + (c.toNat - 48)) 0

/-- Parse a non-empty optionally-signed decimal literal (integer part,
optional fraction). Returns `none` (modelling `NaN`) on any other shape. -/
def parseDecimalChars (cs : List Char) : Option ℚ :=
  let neg : Bool := match cs with
    | '-' :: _ => true
    | _ => false
  let body : List Char := match cs with
    | '-' :: r => r
    | '+' :: r => r
    | r => r
  let ip := body.takeWhile Char.isDigit
  let rest := body.dropWhile Char.isDigit
  match rest with
  | [] =>
    if ip.isEmpty then none
    else some (if neg then -(digitsToNat ip : ℚ) else (digitsToNat ip : ℚ))
  | '.' :: fr =>
    let fp := fr.takeWhile Char.isDigit
    let rest2 := fr.dropWhile Char.isDigit
    if rest2.isEmpty && !(ip.isEmpty && fp.isEmpty) then
      let mag : ℚ := (digitsToNat ip : ℚ) + (digitsToNat fp : ℚ) / (10 : ℚ) ^ fp.length
      some (if neg then -mag else mag)
    else none
  | _ => none

/-- Modelled ECMAScript `Number(·)` / `ToNumber` on strings, restricted to
the decimal fragment of the grammar (optional sign, digits, optional
fraction; the hex/exponent/`Infinity` forms are outside the inputs of
interest): leading/trailing whitespace is trimmed, the empty/whitespace
string coerces to `0`, and non-numeric strings give `none`, modelling
`NaN`. -/
def jsStringToNum (s : String) : Option ℚ :=
  let t := ((s.data.dropWhile isWs).reverse.dropWhile isWs).reverse
  if t.isEmpty then some 0 else parseDecimalChars t

/-- Modelled ECMAScript `Number(·)` / `ToNumber` on `JSValue`: `undefined`
gives `NaN` (`none`), `null` gives `0`, booleans give `0`/`1`, strings go
through the string grammar, and arrays/objects go through `ToPrimitive`,
i.e. their `ToString` rendering. -/
def jsToNumber : JSValue → Option ℚ
  | .undefined => none
  | .null => some 0
  | .bool b => some (if b then 1 else 0)
  | .num q => some q
  | .str s => jsStringToNum s
  | .arr vs => jsStringToNum (jsToString (.arr vs))
  | .obj fs => jsStringToNum (jsToString (.obj fs))

/-- Property lookup on an association list, first match wins (values from
`JSON.parse` carry distinct keys, where the parser keeps the last
duplicate, so first match agrees with object lookup). -/
def getFieldList : List (String × JSValue) → String → JSValue
  | [], _ => .undefined
  | (k, w) :: rest, key => if k = key then w else getFieldList rest key

/-- Modelled JavaScript property access `v[key]`: reading any property of
a non-object, or an absent property of an object, yields `undefined`. -/
def getField (v : JSValue) (key : String) : JSValue :=
  match v with
  | .obj fields => getFieldList fields key
  | _ => .undefined

/-! Translation of src/src/gemini.ts. -/

/-- The core fields produced by the analysis adapter
(`Omit AnalysisResult of timestamp, imageUrl, ageGroup` in the source,
which also leaves `age` to the caller). -/
structure AnalysisCore where
  type : String
  stage : String
  severity : ℚ
  precautions : List String
  meds : List String
deriving DecidableEq

/-- Translation of `toStrArray` (src/src/gemini.ts line 79):
`Array.isArray(v) ? v.map(String).filter(Boolean) : []`. After `map String`
every element is a string, so `filter Boolean` drops exactly the empty
strings. -/
def toStrArray : JSValue → List String
  | .arr vs => (vs.map jsToString).filter (fun s => s != "")
  | _ => []

/-- Translation of `clamp` (src/src/gemini.ts line 80):
`Math.max(min, Math.min(max, n))`. -/
def clamp (n lo hi : ℚ) : ℚ := max lo (min hi n)

/-- Translation of the expression `Number(x) || 0` with `none` modelling
`NaN`: the falsy numbers are `NaN` and `0`, and both are replaced by the
literal `0`, so on the `some q` branch the result is `q` (for `q = 0` the
replacement returns the same value `0`). -/
def numOrZero : Option ℚ → ℚ
  | none => 0
  | some q => q

/-- Translation of the normalization in `parseModelResponse`
(src/src/gemini.ts lines 70-76), applied to the parsed JSON value. -/
def normalizeCore (json : JSValue) : AnalysisCore :=
  { type := if truthy (getField json "type") then jsToString (getField json "type") else "Other"
    stage := if truthy (getField json "stage") then jsToString (getField json "stage") else "Unknown"
    severity := clamp (numOrZero (jsToNumber (getField json "severity"))) 0 100
    precautions := (toStrArray (getField json "precautions")).take 4
    meds := (toStrArray (getField json "meds")).take 4 }

/-- Index of the first occurrence of a left brace. -/
def firstBrace : List Char → Option Nat
  | [] => none
  | c :: rest => if c = '{' then some 0 else (firstBrace rest).map (fun i => i + 1)

/-- Index of the last occurrence of a right brace. -/
def lastClose : List Char → Option Nat
  | [] => none
  | c :: rest =>
    match lastClose rest with
    | some j => some (j + 1)
    | none => if c = '}' then some 0 else none

/-- Translation of the regex extraction in `parseModelResponse`
(src/src/gemini.ts line 67). The greedy regex match on braces succeeds
from the earliest starting left brace for which some right brace occurs
later, and extends to the last right brace of the whole text; if the
first left brace has no later right brace then no left brace has one, so
the whole match fails.  Hence the match succeeds exactly when the first
left brace precedes the last right brace, and then spans from the first
left brace to the last right brace inclusive. -/
def extractJsonSpan (text : String) : Option (List Char) :=
  match firstBrace text.data, lastClose text.data with
  | some i, some j => if i < j then some ((text.data.take (j + 1)).drop i) else none
  | _, _ => none

/-- The failure taxonomy of the analysis path: missing credential
(gemini.ts line 21), endpoint failure propagated from the network call,
no JSON block in the reply (line 68), and a JSON syntax error from the
parse of the extracted block (line 69). -/
inductive AnalysisError where
  | ConfigurationError : AnalysisError
  | AnalysisFailed (msg : String) : AnalysisError
  | NoJsonFound : AnalysisError
  | MalformedResponse : AnalysisError
deriving DecidableEq

/-- The step of `parseModelResponse` after extraction: `JSON.parse` the
extracted block (the builtin parser is passed in as `jsonParse`, with
`none` modelling a thrown `SyntaxError`), then normalize. -/
def parseJsonStep (jsonParse : String → Option JSValue) (cs : List Char) :
    Except AnalysisError AnalysisCore :=
  match jsonParse (String.mk cs) with
  | none => .error .MalformedResponse
  | some j => .ok (normalizeCore j)

/-- Translation of `parseModelResponse` (src/src/gemini.ts lines 65-77),
parameterized by the modelled `JSON.parse` builtin. -/
def parseModelResponse (jsonParse : String → Option JSValue) (text : String) :
    Except AnalysisError AnalysisCore :=
  match extractJsonSpan text with
  | none => .error .NoJsonFound
  | some cs => parseJsonStep jsonParse cs

/-- Translation of `analyzeWithGemini` (src/src/gemini.ts lines 19-44):
fail fast when the API key is missing, otherwise perform the single
network call (its outcome is passed in as `network`: an error message or
the free-form reply text) and parse the reply. -/
def analyzeWithGemini (jsonParse : String → Option JSValue) (apiKey : Option String)
    (network : Except String String) : Except AnalysisError AnalysisCore :=
  match apiKey with
  | none => .error .ConfigurationError
  | some _ =>
    match network with
    | .error msg => .error (.AnalysisFailed msg)
    | .ok text => parseModelResponse jsonParse text

/-! Translation of src/src/App.tsx. -/

/-- The domain record `AnalysisResult` (src/src/gemini.ts lines 3-13):
`age` and `ageGroup` are optional in the source type, `none` modelling
`undefined`. -/
structure AnalysisResult where
  timestamp : ℚ
  imageUrl : String
  age : Option ℚ
  ageGroup : Option String
  type : String
  stage : String
  severity : ℚ
  precautions : List String
  meds : List String
deriving DecidableEq

/-- Translation of `toAgeGroup` (src/src/App.tsx lines 352-357).  The
argument models a JavaScript number that may be `NaN` (`none` covers the
source's `age == null || isNaN(age)` test; in `onAnalyze` the argument is
`Number(ageInput)`, which is never `null`/`undefined`). -/
def toAgeGroup : Option ℚ → String
  | none => "Any Age"
  | some a => if a ≤ 12 then "Child" else if 60 ≤ a then "Elderly" else "Adult"

/-- Age-group derivation performed by `onAnalyze` (src/src/App.tsx lines
29-30): `toAgeGroup(Number(age))` on the raw age input string. -/
def ageGroupOfInput (age : String) : String := toAgeGroup (jsStringToNum age)

/-- Record assembly in `onAnalyze` (src/src/App.tsx lines 33-39): the
normalized core plus timestamp, image reference, the numeric age
(`undefined` when `Number(ageInput)` is `NaN`) and the derived age
group. -/
def mkEntry (core : AnalysisCore) (ts : ℚ) (url : String) (ageInput : String) :
    AnalysisResult :=
  { timestamp := ts
    imageUrl := url
    age := jsStringToNum ageInput
    ageGroup := some (ageGroupOfInput ageInput)
    type := core.type
    stage := core.stage
    severity := core.severity
    precautions := core.precautions
    meds := core.meds }

/-- The history mutation in `onAnalyze` (src/src/App.tsx line 41):
`[entry, ...history].slice(0, 25)`. -/
def record (history : List AnalysisResult) (entry : AnalysisResult) :
    List AnalysisResult :=
  (entry :: history).take 25

/-- Iterated `record` calls starting from the empty store. -/
def recordAll (entries : List AnalysisResult) : List AnalysisResult :=
  entries.foldl record []

/-- The JSON value tree that `JSON.stringify` produces for one record:
an object with the record's fields in insertion order, where the optional
`age`/`ageGroup` keys are omitted when their value is `undefined` (as
`JSON.stringify` omits `undefined`-valued properties). -/
def encodeRec (r : AnalysisResult) : JSValue :=
  .obj ([("type", .str r.type),
         ("stage", .str r.stage),
         ("severity", .num r.severity),
         ("precautions", .arr (r.precautions.map .str)),
         ("meds", .arr (r.meds.map .str)),
         ("timestamp", .num r.timestamp),
         ("imageUrl", .str r.imageUrl)]
        ++ (match r.age with | none => [] | some a => [("age", .num a)])
        ++ (match r.ageGroup with | none => [] | some g => [("ageGroup", .str g)]))

/-- Translation of `saveHistory` (src/src/App.tsx lines 359-361): the
stored string `JSON.stringify(list)` is modelled by its JSON value tree
(`JSON.parse` of the stored string recovers exactly this tree). -/
def saveHistory (list : List AnalysisResult) : JSValue :=
  .arr (list.map encodeRec)

/-- Classification of the durable-storage slot by the outcome of reading
and `JSON.parse`-ing it: the key is absent, holds a string that is not
well-formed JSON, or holds well-formed JSON with the given parsed
value. -/
inductive StoredContent where
  | absent : StoredContent
  | malformed : StoredContent
  | wellFormed (v : JSValue) : StoredContent

/-- Translation of `readHistory` (src/src/App.tsx lines 362-364):
`try { return JSON.parse(localStorage.getItem(key) || '[]') } catch { return [] }`.
An absent key parses the literal `[]`, a malformed value is caught and
replaced by the empty array, and well-formed JSON is returned exactly as
parsed, with no validation of its shape. -/
def readHistory : StoredContent → JSValue
  | .absent => .arr []
  | .malformed => .arr []
  | .wellFormed v => v

/-- The tab keys of the UI (src/src/App.tsx line 4). -/
inductive TabKey where
  | results | history | examples | reports
deriving DecidableEq

/-- The mutable application state touched by `onAnalyze`: the active tab,
the busy flag, the progress message, the displayed result, the in-memory
history, and the durable storage slot. -/
structure AppState where
  activeTab : TabKey
  busy : Bool
  thinking : String
  result : Option AnalysisResult
  history : List AnalysisResult
  storage : StoredContent

/-- Net effect of one completed `onAnalyze` call (src/src/App.tsx lines
24-55, after the image-presence check) given the outcome of the awaited
`analyzeWithGemini` call: on failure the catch branch only alerts and
resets the progress message (the finally branch resets the busy flag); on
success the new entry becomes the displayed result, is prepended to the
history capped at 25, and the updated history is persisted. -/
def onAnalyze (s : AppState) (outcome : Except AnalysisError AnalysisCore)
    (ts : ℚ) (url : String) (ageInput : String) : AppState :=
  match outcome with
  | .error _ => { s with busy := false, thinking := "" }
  | .ok core =>
    let entry := mkEntry core ts url ageInput
    let updated := record s.history entry
    { s with result := some entry
             history := updated
             storage := .wellFormed (saveHistory updated)
             activeTab := .results
             busy := false
             thinking := "" }

/-- One analysis request of a run: the parsed model payload together with
the metadata the caller attaches. -/
structure AnalyzeReq where
  payload : JSValue
  ts : ℚ
  url : String
  ageInput : String

/-- All history lists handed to `saveHistory` along a run of successful
analyses starting from the given in-memory history. -/
def persistedHistories : List AnalysisResult → List AnalyzeReq → List (List AnalysisResult)
  | _, [] => []
  | h, q :: rest =>
    let h2 := record h (mkEntry (normalizeCore q.payload) q.ts q.url q.ageInput)
    h2 :: persistedHistories h2 rest

/-! Specification-side definitions (from the words of the spec, for
comparison with the translated code). -/

/-- The fixed type vocabulary of the spec. -/
def typeVocab : List String :=
  ["Burn", "Cut", "Diabetic Foot Ulcer", "Infected Wound", "Other"]

/-- The fixed stage vocabulary of the spec. -/
def stageVocab : List String :=
  ["Inflammatory", "Proliferative", "Maturation", "Unknown"]

/-- Specification-side `numberOr`: coerce to a number and substitute the
default when the coercion fails (yields `NaN`). -/
def numberOr (v : JSValue) (d : ℚ) : ℚ := (jsToNumber v).getD d

/-- Specification-side description of a brace span: some left brace occurs
strictly before some right brace. -/
def hasSpan (cs : List Char) : Prop :=
  ∃ i j, i < j ∧ cs.get? i = some '{' ∧ cs.get? j = some '}'

/-- The clamped/defaulted field constraints every persisted record must
satisfy according to the spec invariant. -/
def goodRec (r : AnalysisResult) : Prop :=
  0 ≤ r.severity ∧ r.severity ≤ 100 ∧
  r.precautions.length ≤ 4 ∧ (∀ s ∈ r.precautions, s ≠ "") ∧
  r.meds.length ≤ 4 ∧ (∀ s ∈ r.meds, s ≠ "")

/-- Specification-side reading of a number field. -/
def numOfJson : JSValue → Option ℚ
  | .num q => some q
  | _ => none

/-- Specification-side reading of a string field. -/
def strOfJson : JSValue → Option String
  | .str s => some s
  | _ => none

/-- Specification-side reading of an optional number field (`undefined`
models the absent property). -/
def optNumOfJson : JSValue → Option (Option ℚ)
  | .undefined => some none
  | .num q => some (some q)
  | _ => none

/-- Specification-side reading of an optional string field. -/
def optStrOfJson : JSValue → Option (Option String)
  | .undefined => some none
  | .str s => some (some s)
  | _ => none

/-- Specification-side reading of a string-list field. -/
def strListOfJson : JSValue → Option (List String)
  | .arr vs => vs.mapM strOfJson
  | _ => none

/-- Field-by-field reading of a stored record, typed exactly as the
program consumes it. -/
def recOfJson (v : JSValue) : Option AnalysisResult := do
  let ts ← numOfJson (getField v "timestamp")
  let url ← strOfJson (getField v "imageUrl")
  let age ← optNumOfJson (getField v "age")
  let ag ← optStrOfJson (getField v "ageGroup")
  let ty ← strOfJson (getField v "type")
  let st ← strOfJson (getField v "stage")
  let sev ← numOfJson (getField v "severity")
  let pre ← strListOfJson (getField v "precautions")
  let med ← strListOfJson (getField v "meds")
  some { timestamp := ts, imageUrl := url, age := age, ageGroup := ag,
         type := ty, stage := st, severity := sev, precautions := pre, meds := med }

/-- Field-by-field reading of a stored history sequence. -/
def historyOfJson : JSValue → Option (List AnalysisResult)
  | .arr vs => vs.mapM recOfJson
  | _ => none

/-! Helper lemmas. -/

/-- Clamping to the severity range lands in the range. -/
theorem clamp_bounds (n : ℚ) : 0 ≤ clamp n 0 100 ∧ clamp n 0 100 ≤ 100 :=
  ⟨le_max_left _ _, max_le (by norm_num) (min_le_left _ _)⟩

/-- Every element produced by `toStrArray` is a non-empty string. -/
theorem toStrArray_ne_empty (v : JSValue) : ∀ s ∈ toStrArray v, s ≠ "" := by
  cases v <;> simp [toStrArray, List.mem_filter]

/-! Claim theorems. -/

/-- C1: evaluation of the age-group derivation of `onAnalyze` at the
claimed inputs. The input `"7"` yields `Child` and a non-numeric input
yields `Any Age` as claimed, but the empty input yields `Child`, not
`Any Age`: JavaScript coerces `Number("")` to `0`, so an empty age field
is bucketed as a newborn. -/
theorem empty_age_input_yields_child :
    ageGroupOfInput "7" = "Child" ∧ ageGroupOfInput "abc" = "Any Age" ∧
    ageGroupOfInput "" = "Child" ∧ ("Child" : String) ≠ "Any Age" :=
  ⟨by decide, by decide, by decide, by decide⟩

/-- C2 counterexample: the normalization performs no vocabulary check.
A payload whose `type` is the unrecognized string `Banana` (and whose
`stage` is the unrecognized string `Mature`) passes through unchanged,
so the normalized `type` is not a member of the fixed vocabulary and is
not `Other`, refuting the claim at this concrete input. -/
theorem type_vocab_cex :
    (normalizeCore (.obj [("type", .str "Banana"), ("stage", .str "Mature")])).type
        = "Banana" ∧
    "Banana" ∉ typeVocab ∧
    (normalizeCore (.obj [("type", .str "Banana"), ("stage", .str "Mature")])).stage
        = "Mature" ∧
    "Mature" ∉ stageVocab :=
  ⟨by decide, by decide, by decide, by decide⟩

/-- C2 (amended): the normalized `type` is the string coercion of the
source `type` field when that field is truthy and `Other` otherwise (in
particular when the field is absent); any non-empty source string —
vocabulary member or not — passes through unchanged. Likewise `stage`
with default `Unknown`. -/
theorem type_stage_defaulting (json : JSValue) :
    ((normalizeCore json).type
        = if truthy (getField json "type") then jsToString (getField json "type") else "Other") ∧
    (getField json "type" = .undefined → (normalizeCore json).type = "Other") ∧
    (∀ s, s ≠ "" → getField json "type" = .str s → (normalizeCore json).type = s) ∧
    ((normalizeCore json).stage
        = if truthy (getField json "stage") then jsToString (getField json "stage") else "Unknown") ∧
    (getField json "stage" = .undefined → (normalizeCore json).stage = "Unknown") ∧
    (∀ s, s ≠ "" → getField json "stage" = .str s → (normalizeCore json).stage = s) := by
  refine ⟨rfl, ?_, ?_, rfl, ?_, ?_⟩
  · intro h; simp [normalizeCore, h, truthy]
  · intro s hs h; simp [normalizeCore, h, truthy, hs, jsToString]
  · intro h; simp [normalizeCore, h, truthy]
  · intro s hs h; simp [normalizeCore, h, truthy, hs, jsToString]

/-- C2 witness: at a payload with no fields at all, both defaults fire. -/
theorem type_stage_defaulting_witness :
    (normalizeCore (.obj [])).type = "Other" ∧ (normalizeCore (.obj [])).stage = "Unknown" :=
  ⟨(type_stage_defaulting (.obj [])).2.1 rfl,
   (type_stage_defaulting (.obj [])).2.2.2.2.1 rfl⟩

/-- C3: for every payload, the normalized severity equals
`clamp (numberOr s 0) 0 100` applied to the raw `severity` field `s`, and
lies in the interval `[0, 100]`. -/
theorem severity_clamped (json : JSValue) :
    (normalizeCore json).severity = clamp (numberOr (getField json "severity") 0) 0 100 ∧
    0 ≤ (normalizeCore json).severity ∧ (normalizeCore json).severity ≤ 100 := by
  have he : (normalizeCore json).severity
      = clamp (numberOr (getField json "severity") 0) 0 100 := by
    simp only [normalizeCore, numberOr]
    cases jsToNumber (getField json "severity") <;> simp [numOrZero, Option.getD]
  refine ⟨he, ?_, ?_⟩
  · rw [he]; exact (clamp_bounds _).1
  · rw [he]; exact (clamp_bounds _).2

/-- C10: the history load step returns any well-formed stored JSON value
exactly as parsed — no check that it is an array, no length bound, no
record-shape validation. -/
theorem load_no_validation (v : JSValue) : readHistory (.wellFormed v) = v := rfl

/-- C4: for every payload, each normalized list (`precautions`, `meds`)
has length at most 4, contains only non-empty strings, equals the first 4
valid entries (string coercions that are non-empty, in source order) when
the source field is an array, and is empty when the source field is not
an array. -/
theorem lists_normalized (json : JSValue) :
    ((normalizeCore json).precautions.length ≤ 4 ∧
     (∀ s ∈ (normalizeCore json).precautions, s ≠ "") ∧
     (∀ vs, getField json "precautions" = .arr vs →
        (normalizeCore json).precautions
          = ((vs.map jsToString).filter (fun s => s != "")).take 4) ∧
     ((∀ vs, getField json "precautions" ≠ .arr vs) →
        (normalizeCore json).precautions = [])) ∧
    ((normalizeCore json).meds.length ≤ 4 ∧
     (∀ s ∈ (normalizeCore json).meds, s ≠ "") ∧
     (∀ vs, getField json "meds" = .arr vs →
        (normalizeCore json).meds
          = ((vs.map jsToString).filter (fun s => s != "")).take 4) ∧
     ((∀ vs, getField json "meds" ≠ .arr vs) →
        (normalizeCore json).meds = [])) := by
  refine ⟨⟨?_, ?_, ?_, ?_⟩, ⟨?_, ?_, ?_, ?_⟩⟩
  · simp only [normalizeCore]
    rw [List.length_take]; omega
  · intro s hs
    simp only [normalizeCore] at hs
    exact toStrArray_ne_empty _ s (List.take_subset _ _ hs)
  · intro vs h; simp [normalizeCore, h, toStrArray]
  · intro h
    simp only [normalizeCore]
    cases hg : getField json "precautions" <;> simp [toStrArray]
    exact absurd hg (h _)
  · simp only [normalizeCore]
    rw [List.length_take]; omega
  · intro s hs
    simp only [normalizeCore] at hs
    exact toStrArray_ne_empty _ s (List.take_subset _ _ hs)
  · intro vs h; simp [normalizeCore, h, toStrArray]
  · intro h
    simp only [normalizeCore]
    cases hg : getField json "meds" <;> simp [toStrArray]
    exact absurd hg (h _)

/-- Concrete payload exercising both list branches: an array with an
empty entry and five valid entries, and a non-array `meds` field. -/
def wJson : JSValue :=
  .obj [("precautions", .arr [.str "a", .str "", .str "b", .str "c", .str "d", .str "e"]),
        ("meds", .num 3)]

/-- C4 witness: the empty entry is dropped, the first four valid entries
survive in order, and the non-array `meds` field yields the empty list. -/
theorem lists_normalized_witness :
    (normalizeCore wJson).precautions = ["a", "b", "c", "d"] ∧
    (normalizeCore wJson).meds = [] := by
  have h1 := (lists_normalized wJson).1.2.2.1
    [.str "a", .str "", .str "b", .str "c", .str "d", .str "e"]
    (by simp [wJson, getField, getFieldList])
  have h2 := (lists_normalized wJson).2.2.2.2
    (by intro vs h; simp [wJson, getField, getFieldList] at h)
  exact ⟨h1.trans (by decide), h2⟩

/-- Truncating after appending to an already-truncated list is the same
as truncating the full concatenation. -/
theorem take_append_take {α : Type _} (l m : List α) (k : ℕ) :
    (l ++ m.take k).take k = (l ++ m).take k := by
  rw [List.take_append_eq_append_take, List.take_append_eq_append_take, List.take_take,
    min_eq_left (Nat.sub_le _ _)]

/-- The result of `record` is already truncated to 25 entries. -/
theorem record_take (h : List AnalysisResult) (e : AnalysisResult) :
    (record h e).take 25 = record h e := by
  simp [record, List.take_take]

/-- Folding `record` over a request sequence from any already-truncated
store keeps the newest 25 entries, newest first. -/
theorem recordAll_aux (es : List AnalysisResult) :
    ∀ h : List AnalysisResult, h.take 25 = h →
      es.foldl record h = (es.reverse ++ h).take 25 := by
  induction es with
  | nil => intro h hh; simpa using hh.symm
  | cons e es ih =>
    intro h hh
    rw [List.foldl_cons, ih (record h e) (record_take h e),
      List.reverse_cons, List.append_assoc, List.singleton_append, record]
    exact take_append_take _ _ _

/-- Closed form of the iterated store: the last 25 recorded entries in
reverse chronological order. -/
theorem recordAll_eq (es : List AnalysisResult) : recordAll es = es.reverse.take 25 := by
  simpa [recordAll] using recordAll_aux es [] rfl

/-- C6: the store never exceeds 25 entries, each `record` call inserts
the new entry at the head, and after more than 25 `record` calls the
store holds exactly the 25 most recently recorded entries in reverse
chronological order. -/
theorem history_cap (entries : List AnalysisResult) :
    (recordAll entries).length ≤ 25 ∧
    (∀ h e, (record h e).head? = some e) ∧
    (25 < entries.length →
      recordAll entries = entries.reverse.take 25 ∧ (recordAll entries).length = 25) := by
  refine ⟨?_, ?_, ?_⟩
  · rw [recordAll_eq, List.length_take]; omega
  · intro h e; rfl
  · intro hlen
    refine ⟨recordAll_eq entries, ?_⟩
    rw [recordAll_eq, List.length_take, List.length_reverse]
    omega

/-- A minimal record used for concrete store and state instances. -/
def mkSimple (i : ℕ) : AnalysisResult :=
  { timestamp := (i : ℚ), imageUrl := "", age := none, ageGroup := none,
    type := "Other", stage := "Unknown", severity := 0, precautions := [], meds := [] }

/-- C6 witness: recording 26 entries leaves exactly the newest 25,
newest first. -/
theorem history_cap_witness :
    recordAll ((List.range 26).map mkSimple)
        = ((List.range 26).map mkSimple).reverse.take 25 ∧
    (recordAll ((List.range 26).map mkSimple)).length = 25 :=
  (history_cap ((List.range 26).map mkSimple)).2.2 (by simp)

/-- Modelled `JSON.parse` builtin that rejects every input, for concrete
failure instances. -/
def noParse : String → Option JSValue := fun _ => none

/-- A concrete prior application state with a displayed result, a
non-empty history and a populated storage slot. -/
def someState : AppState :=
  { activeTab := .results, busy := true, thinking := "Uploading",
    result := some (mkSimple 0), history := [mkSimple 1],
    storage := .wellFormed (.num 5) }

/-- C8: whenever the analysis pipeline fails (missing credential, network
error, no JSON block, malformed JSON — i.e. any non-`ok` outcome), the
completed submit action leaves the displayed result, the in-memory
history and the persisted storage exactly as they were; in particular no
partial record is persisted. -/
theorem failure_preserves_state (jsonParse : String → Option JSValue)
    (apiKey : Option String) (network : Except String String) (s : AppState)
    (ts : ℚ) (url : String) (ageInput : String)
    (hfail : ∀ core, analyzeWithGemini jsonParse apiKey network ≠ .ok core) :
    (onAnalyze s (analyzeWithGemini jsonParse apiKey network) ts url ageInput).result
        = s.result ∧
    (onAnalyze s (analyzeWithGemini jsonParse apiKey network) ts url ageInput).history
        = s.history ∧
    (onAnalyze s (analyzeWithGemini jsonParse apiKey network) ts url ageInput).storage
        = s.storage := by
  cases hres : analyzeWithGemini jsonParse apiKey network with
  | error e => simp [onAnalyze]
  | ok core => exact absurd hres (hfail core)

/-- C8 witness: a missing API key fails the pipeline and leaves the
concrete prior state untouched. -/
theorem failure_preserves_state_witness :
    (onAnalyze someState (analyzeWithGemini noParse none (.error "down")) 0 "" "").result
        = someState.result ∧
    (onAnalyze someState (analyzeWithGemini noParse none (.error "down")) 0 "" "").history
        = someState.history ∧
    (onAnalyze someState (analyzeWithGemini noParse none (.error "down")) 0 "" "").storage
        = someState.storage :=
  failure_preserves_state noParse none (.error "down") someState 0 "" ""
    (by intro core h; simp [analyzeWithGemini] at h)

/-- The index returned by `firstBrace` holds a left brace. -/
theorem firstBrace_get (cs : List Char) (i : ℕ) (h : firstBrace cs = some i) :
    cs.get? i = some '{' := by
  induction cs generalizing i with
  | nil => simp [firstBrace] at h
  | cons c rest ih =>
    rw [firstBrace] at h
    by_cases hc : c = '{'
    · rw [if_pos hc] at h
      cases h
      simp [hc]
    · rw [if_neg hc] at h
      cases hfb : firstBrace rest with
      | none => rw [hfb] at h; cases h
      | some i0 =>
        rw [hfb] at h
        injection h with h
        subst h
        simpa using ih i0 hfb

/-- No left brace occurs before the index returned by `firstBrace`. -/
theorem firstBrace_min (cs : List Char) (i : ℕ) (h : firstBrace cs = some i) :
    ∀ k, k < i → cs.get? k ≠ some '{' := by
  induction cs generalizing i with
  | nil => simp [firstBrace] at h
  | cons c rest ih =>
    rw [firstBrace] at h
    by_cases hc : c = '{'
    · rw [if_pos hc] at h
      cases h
      intro k hk
      exact absurd hk (Nat.not_lt_zero k)
    · rw [if_neg hc] at h
      cases hfb : firstBrace rest with
      | none => rw [hfb] at h; cases h
      | some i0 =>
        rw [hfb] at h
        injection h with h
        subst h
        intro k hk
        cases k with
        | zero => simpa using hc
        | succ k0 => simpa using ih i0 hfb k0 (Nat.lt_of_succ_lt_succ hk)

/-- When `firstBrace` finds nothing, the text holds no left brace. -/
theorem firstBrace_none (cs : List Char) (h : firstBrace cs = none) :
    ∀ k, cs.get? k ≠ some '{' := by
  induction cs with
  | nil => intro k; simp
  | cons c rest ih =>
    rw [firstBrace] at h
    by_cases hc : c = '{'
    · rw [if_pos hc] at h; cases h
    · rw [if_neg hc] at h
      intro k
      cases k with
      | zero => simpa using hc
      | succ k0 =>
        cases hfb : firstBrace rest with
        | none => simpa using ih hfb k0
        | some i0 => rw [hfb] at h; cases h

/-- Completeness of `firstBrace`: the earliest index holding a left brace
is the one returned. -/
theorem firstBrace_of_get (cs : List Char) (i : ℕ) (hget : cs.get? i = some '{')
    (hmin : ∀ k, k < i → cs.get? k ≠ some '{') : firstBrace cs = some i := by
  induction cs generalizing i with
  | nil => simp at hget
  | cons c rest ih =>
    cases i with
    | zero =>
      simp at hget
      rw [firstBrace, if_pos hget]
    | succ i0 =>
      have hc : c ≠ '{' := by simpa using hmin 0 (Nat.succ_pos i0)
      rw [firstBrace, if_neg hc]
      have := ih i0 (by simpa using hget)
        (fun k hk => by simpa using hmin (k + 1) (Nat.succ_lt_succ hk))
      rw [this]
      rfl

/-- The index returned by `lastClose` holds a right brace. -/
theorem lastClose_get (cs : List Char) (j : ℕ) (h : lastClose cs = some j) :
    cs.get? j = some '}' := by
  induction cs generalizing j with
  | nil => simp [lastClose] at h
  | cons c rest ih =>
    rw [lastClose] at h
    cases hlc : lastClose rest with
    | some j0 =>
      rw [hlc] at h
      injection h with h
      subst h
      simpa using ih j0 hlc
    | none =>
      rw [hlc] at h
      by_cases hc : c = '}'
      · rw [if_pos hc] at h
        cases h
        simp [hc]
      · rw [if_neg hc] at h; cases h

/-- When `lastClose` finds nothing, the text holds no right brace. -/
theorem lastClose_none (cs : List Char) (h : lastClose cs = none) :
    ∀ k, cs.get? k ≠ some '}' := by
  induction cs with
  | nil => intro k; simp
  | cons c rest ih =>
    rw [lastClose] at h
    cases hlc : lastClose rest with
    | some j0 => rw [hlc] at h; cases h
    | none =>
      rw [hlc] at h
      by_cases hc : c = '}'
      · rw [if_pos hc] at h; cases h
      · intro k
        cases k with
        | zero => simpa using hc
        | succ k0 => simpa using ih hlc k0

/-- No right brace occurs after the index returned by `lastClose`. -/
theorem lastClose_max (cs : List Char) (j : ℕ) (h : lastClose cs = some j) :
    ∀ k, cs.get? k = some '}' → k ≤ j := by
  induction cs generalizing j with
  | nil => simp [lastClose] at h
  | cons c rest ih =>
    rw [lastClose] at h
    cases hlc : lastClose rest with
    | some j0 =>
      rw [hlc] at h
      injection h with h
      subst h
      intro k hk
      cases k with
      | zero => exact Nat.zero_le _
      | succ k0 => exact Nat.succ_le_succ (ih j0 hlc k0 (by simpa using hk))
    | none =>
      rw [hlc] at h
      by_cases hc : c = '}'
      · rw [if_pos hc] at h
        cases h
        intro k hk
        cases k with
        | zero => exact Nat.le_refl 0
        | succ k0 => exact absurd (by simpa using hk) (lastClose_none rest hlc k0)
      · rw [if_neg hc] at h; cases h

/-- Completeness of `lastClose`: an index holding a right brace that no
later in-range index beats is the one returned. -/
theorem lastClose_of_get (cs : List Char) (j : ℕ) (hget : cs.get? j = some '}')
    (hmax : ∀ k, k < cs.length → cs.get? k = some '}' → k ≤ j) :
    lastClose cs = some j := by
  induction cs generalizing j with
  | nil => simp at hget
  | cons c rest ih =>
    cases j with
    | zero =>
      simp at hget
      have hrest : lastClose rest = none := by
        cases hlc : lastClose rest with
        | none => rfl
        | some j0 =>
          have hj0 : rest.get? j0 = some '}' := lastClose_get rest j0 hlc
          have hlen : j0 < rest.length := by
            have := List.get?_eq_some.1 hj0
            exact this.1
          have := hmax (j0 + 1) (by simpa using Nat.succ_lt_succ hlen) (by simpa using hj0)
          exact absurd this (by omega)
      rw [lastClose, hrest, if_pos hget]
    | succ j0 =>
      have hj0 : rest.get? j0 = some '}' := by simpa using hget
      have := ih j0 hj0 (fun k hk hb => by
        have := hmax (k + 1) (by simpa using Nat.succ_lt_succ hk) (by simpa using hb)
        omega)
      rw [lastClose, this]

/-- Unfolding equation of `extractJsonSpan` when both indices exist. -/
theorem extractJsonSpan_eq (text : String) (i j : ℕ)
    (hfb : firstBrace text.data = some i) (hlc : lastClose text.data = some j) :
    extractJsonSpan text
      = if i < j then some ((text.data.take (j + 1)).drop i) else none := by
  unfold extractJsonSpan
  rw [hfb, hlc]

/-- The extraction fails exactly when no left brace precedes any right
brace. -/
theorem extractJsonSpan_none_iff (text : String) :
    extractJsonSpan text = none ↔ ¬ hasSpan text.data := by
  cases hfb : firstBrace text.data with
  | none =>
    have hx : extractJsonSpan text = none := by
      unfold extractJsonSpan
      rw [hfb]
    rw [hx]
    constructor
    · rintro - ⟨i, j, _, hi, _⟩
      exact firstBrace_none _ hfb i hi
    · intro _; rfl
  | some i0 =>
    cases hlc : lastClose text.data with
    | none =>
      have hx : extractJsonSpan text = none := by
        unfold extractJsonSpan
        rw [hfb, hlc]
      rw [hx]
      constructor
      · rintro - ⟨i, j, _, _, hj⟩
        exact lastClose_none _ hlc j hj
      · intro _; rfl
    | some j0 =>
      rw [extractJsonSpan_eq text i0 j0 hfb hlc]
      by_cases hij : i0 < j0
      · rw [if_pos hij]
        constructor
        · intro h; cases h
        · intro hn
          exact (hn ⟨i0, j0, hij, firstBrace_get _ _ hfb, lastClose_get _ _ hlc⟩).elim
      · rw [if_neg hij]
        constructor
        · rintro - ⟨i, j, hij2, hi, hj⟩
          have h1 : i0 ≤ i := by
            by_contra hlt
            exact firstBrace_min _ _ hfb i (by omega) hi
          have h2 : j ≤ j0 := lastClose_max _ _ hlc j hj
          omega
        · intro _; rfl

/-- C5: the parser fails with `NoJsonFound` exactly when no left brace of
the response precedes any right brace; it never produces a record in that
case; and whenever `i` is the first left-brace index and `j` the last
right-brace index with `i < j`, it extracts exactly the substring from
`i` to `j` inclusive and hands exactly that substring to the JSON
parse-and-normalize step. -/
theorem json_extraction (jsonParse : String → Option JSValue) (text : String) :
    (parseModelResponse jsonParse text = .error .NoJsonFound ↔ ¬ hasSpan text.data) ∧
    (∀ core, parseModelResponse jsonParse text = .ok core → hasSpan text.data) ∧
    (∀ i j, text.data.get? i = some '{' →
      (∀ k, k < i → text.data.get? k ≠ some '{') →
      text.data.get? j = some '}' →
      (∀ k, k < text.data.length → text.data.get? k = some '}' → k ≤ j) →
      i < j →
      extractJsonSpan text = some ((text.data.take (j + 1)).drop i) ∧
      parseModelResponse jsonParse text
        = parseJsonStep jsonParse ((text.data.take (j + 1)).drop i)) := by
  refine ⟨?_, ?_, ?_⟩
  · rw [← extractJsonSpan_none_iff]
    unfold parseModelResponse
    cases h : extractJsonSpan text with
    | none => simp
    | some cs =>
      cases hp : jsonParse (String.mk cs) <;> simp [parseJsonStep, hp]
  · intro core hok
    by_contra hn
    have hnone := (extractJsonSpan_none_iff text).2 hn
    unfold parseModelResponse at hok
    rw [hnone] at hok
    cases hok
  · intro i j hi hmini hj hmaxj hij
    have hfb : firstBrace text.data = some i := firstBrace_of_get _ _ hi hmini
    have hlc : lastClose text.data = some j := lastClose_of_get _ _ hj hmaxj
    have hx : extractJsonSpan text = some ((text.data.take (j + 1)).drop i) := by
      rw [extractJsonSpan_eq text i j hfb hlc, if_pos hij]
    refine ⟨hx, ?_⟩
    unfold parseModelResponse
    rw [hx]

/-- C5 witness: in `x{y}z` the first left brace is at index 1, the last
right brace at index 3, the extracted block is exactly the three
characters between them inclusive, and with a rejecting JSON parser the
result is `MalformedResponse` (so extraction succeeded). -/
theorem json_extraction_witness :
    extractJsonSpan "x{y}z" = some ['{', 'y', '}'] ∧
    parseModelResponse noParse "x{y}z" = .error .MalformedResponse := by
  have h := (json_extraction noParse "x{y}z").2.2 1 3 (by decide)
    (by decide) (by decide) (by decide) (by decide)
  exact ⟨h.1.trans (by decide), h.2.trans (by rfl)⟩

/-- A `record` step preserves goodness of every stored record. -/
theorem record_good (h : List AnalysisResult) (e : AnalysisResult)
    (hh : ∀ r ∈ h, goodRec r) (he : goodRec e) : ∀ r ∈ record h e, goodRec r := by
  intro r hr
  rcases List.mem_cons.1 (List.take_subset _ _ hr) with rfl | hmem
  · exact he
  · exact hh r hmem

/-- Every entry assembled from a normalized core satisfies the persisted
field constraints. -/
theorem normalized_entry_good (j : JSValue) (ts : ℚ) (url ageInput : String) :
    goodRec (mkEntry (normalizeCore j) ts url ageInput) := by
  refine ⟨(clamp_bounds _).1, (clamp_bounds _).2, ?_, ?_, ?_, ?_⟩
  · show ((toStrArray (getField j "precautions")).take 4).length ≤ 4
    rw [List.length_take]; omega
  · intro s hs
    exact toStrArray_ne_empty _ s (List.take_subset _ _ hs)
  · show ((toStrArray (getField j "meds")).take 4).length ≤ 4
    rw [List.length_take]; omega
  · intro s hs
    exact toStrArray_ne_empty _ s (List.take_subset _ _ hs)

/-- Invariant propagation: starting from a store of good records, every
history handed to `saveHistory` along a run of successful analyses
consists of good records. -/
theorem persisted_aux (reqs : List AnalyzeReq) :
    ∀ h : List AnalysisResult, (∀ r ∈ h, goodRec r) →
      ∀ l ∈ persistedHistories h reqs, ∀ r ∈ l, goodRec r := by
  induction reqs with
  | nil => intro h _ l hl; simp [persistedHistories] at hl
  | cons q reqs ih =>
    intro h hh l hl
    simp only [persistedHistories] at hl
    have h2good := record_good h _ hh (normalized_entry_good q.payload q.ts q.url q.ageInput)
    rcases List.mem_cons.1 hl with rfl | hl2
    · exact h2good
    · exact ih _ h2good l hl2

/-- C7: every history list ever persisted to durable storage along a run
of successful analyses starting from the empty store consists of records
with severity in `[0, 100]`, no empty-string list entries, and at most 4
entries per list. -/
theorem persisted_records_good (reqs : List AnalyzeReq) :
    ∀ l ∈ persistedHistories [] reqs, ∀ r ∈ l, goodRec r :=
  persisted_aux reqs [] (by simp)

/-- A concrete analysis request with an empty payload. -/
def wReq : AnalyzeReq := { payload := .obj [], ts := 0, url := "", ageInput := "" }

/-- C7 witness: the single record persisted by a one-request run from the
empty store satisfies the constraints. -/
theorem persisted_records_good_witness :
    goodRec (mkEntry (normalizeCore (.obj [])) 0 "" "") := by
  refine persisted_records_good [wReq]
    (record [] (mkEntry (normalizeCore (.obj [])) 0 "" "")) ?_
    (mkEntry (normalizeCore (.obj [])) 0 "" "") ?_
  · simp [persistedHistories, wReq]
  · simp [record]

/-- Reading back an encoded string list recovers it. -/
theorem strListOfJson_maps (l : List String) :
    strListOfJson (.arr (l.map .str)) = some l := by
  induction l with
  | nil => rfl
  | cons s rest ih =>
    simp only [strListOfJson] at ih ⊢
    simp only [List.map_cons, List.mapM_cons, strOfJson, ih]
    rfl

/-- Reading back one encoded record recovers it field for field. -/
theorem recOfJson_encodeRec (r : AnalysisResult) : recOfJson (encodeRec r) = some r := by
  obtain ⟨ts, url, age, ag, ty, st, sev, pre, med⟩ := r
  cases age <;> cases ag <;>
    simp [recOfJson, encodeRec, getField, getFieldList, numOfJson, strOfJson,
      optNumOfJson, optStrOfJson, strListOfJson_maps]

/-- Reading back an encoded record list recovers it elementwise. -/
theorem history_list_round (l : List AnalysisResult) :
    (l.map encodeRec).mapM recOfJson = some l := by
  induction l with
  | nil => rfl
  | cons r rest ih =>
    simp only [List.map_cons, List.mapM_cons, recOfJson_encodeRec, ih]
    rfl

/-- C9: persisting the history store and reloading it from durable
storage yields the identical ordered sequence of records, field for
field. -/
theorem history_round_trip (list : List AnalysisResult) :
    historyOfJson (readHistory (.wellFormed (saveHistory list))) = some list := by
  simpa [readHistory, saveHistory, historyOfJson] using history_list_round list
